import Mathlib

set_option maxHeartbeats 1000000

/-!
Verification of the starlark-rust runtime core against its specification.

The development shallowly embeds the Rust sources:
* `src/starlark/src/collections/small_map.rs` (`SmallMap`)
* `src/starlark/src/eval/parameters.rs` (`ParametersSpec`, `ParametersCollect`)
* `src/starlark/src/eval/scope.rs` (`Scope`, `ScopeNames`)
* `src/starlark/src/values/layout/value.rs` (`Value`, `ValueMem`, `get_ref`)

Auxiliary modules that the repository uses but whose sources are not part of
the provided tree (`vec_map.rs`, `hash.rs`, `pointer.rs`, the external
`indexmap` crate) are modelled from the specification, as flagged in the
relevant doc comments.
-/

namespace Starlark

/-! ## Entry lists

Both storage shapes of `SmallMap` (the vector shape backed by `VecMap`, and
the indexed shape backed by `IndexMap`) are order-preserving sequences of
key-value entries with the same observable contract: lookup by key equality,
insert replaces in place (returning the previous value) or appends,
remove shifts later entries down.  We model both by a single entry-list type.
-/

/-- Modelled from the spec: `vec_map.rs` is not under `src/`.  Lookup by key
equality, first match («Equality uses key equality only»). -/
def entriesGet [DecidableEq K] : List (K × V) → K → Option V
  | [], _ => none
  | (k, v) :: rest, key => if k = key then some v else entriesGet rest key

/-- Modelled from the spec: insert for `VecMap` and `IndexMap` alike — if the
key is present, the old entry keeps its place and its value is replaced, and
the previous value is returned («never reorders on replace»); otherwise the
new entry is appended at the end («insertion order preserved»). -/
def entriesInsert [DecidableEq K] : List (K × V) → K → V → Option V × List (K × V)
  | [], key, val => (none, [(key, val)])
  | (k, v) :: rest, key, val =>
    if k = key then (some v, (k, val) :: rest)
    else
      let r := entriesInsert rest key val
      (r.1, (k, v) :: r.2)

/-- Modelled from the spec: shift-remove — the removed entry's value is
returned and later entries shift down by one. -/
def entriesRemove [DecidableEq K] : List (K × V) → K → Option V × List (K × V)
  | [], _ => (none, [])
  | (k, v) :: rest, key =>
    if k = key then (some v, rest)
    else
      let r := entriesRemove rest key
      (r.1, (k, v) :: r.2)

/-- Modelled from the spec: the vector-to-map promotion threshold defined in
`vec_map.rs` (not under `src/`); the spec gives it as ≈12. -/
def THRESHOLD : Nat := 12

/-- Storage shapes of `SmallMap`, mirroring `enum MapHolder` in
`small_map.rs`: the empty sentinel, the vector shape, the indexed-map shape.
Each non-empty shape is represented by its entry sequence in iteration
order. -/
inductive MapHolder (K V : Type) where
  | Empty : MapHolder K V
  | Vec (entries : List (K × V)) : MapHolder K V
  | Map (entries : List (K × V)) : MapHolder K V
deriving DecidableEq

/-- Mirrors `struct SmallMap` in `small_map.rs`. -/
structure SmallMap (K V : Type) where
  state : MapHolder K V
deriving DecidableEq

namespace SmallMap

/-- Mirrors `SmallMap::new` (the default is the empty sentinel). -/
def new : SmallMap K V := ⟨MapHolder.Empty⟩

/-- Mirrors `MapHolder::with_capacity` / `SmallMap::with_capacity`. -/
def with_capacity (n : Nat) : SmallMap K V :=
  if n < THRESHOLD then ⟨MapHolder.Vec []⟩ else ⟨MapHolder.Map []⟩

/-- The entry sequence in iteration order, as produced by `SmallMap::iter`. -/
def entries : SmallMap K V → List (K × V)
  | ⟨MapHolder.Empty⟩ => []
  | ⟨MapHolder.Vec e⟩ => e
  | ⟨MapHolder.Map e⟩ => e

/-- Mirrors `SmallMap::keys`. -/
def keys (m : SmallMap K V) : List K := m.entries.map Prod.fst

/-- Mirrors `SmallMap::len`. -/
def len (m : SmallMap K V) : Nat := m.entries.length

/-- Mirrors `SmallMap::is_empty`. -/
def is_empty (m : SmallMap K V) : Bool := m.entries.isEmpty

/-- Mirrors `SmallMap::get_hashed` (and `get`, which only computes the hash
first; hashes are modelled away since lookup compares keys). -/
def get_hashed [DecidableEq K] : SmallMap K V → K → Option V
  | ⟨MapHolder.Empty⟩, _ => none
  | ⟨MapHolder.Vec e⟩, key => entriesGet e key
  | ⟨MapHolder.Map e⟩, key => entriesGet e key

/-- Mirrors `SmallMap::get_index`: positional access by insertion index,
provided by both shapes. -/
def get_index (m : SmallMap K V) (i : Nat) : Option (K × V) :=
  m.entries.get? i

/-- Mirrors `SmallMap::get_index_of_hashed`. -/
def get_index_of [DecidableEq K] (m : SmallMap K V) (key : K) : Option Nat :=
  m.entries.findIdx? (fun kv => kv.1 = key)

/-- Mirrors `SmallMap::insert_hashed`.  On the `Empty` shape it upgrades to a
vector first (`upgrade_empty_to_vec`); on the `Vec` shape it computes
`want = len + 1` and, when `want < THRESHOLD` fails, promotes to the indexed
shape (`upgrade_vec_to_map` drains the vector preserving order) before
inserting.  Returns the previous value, if any, alongside the new map. -/
def insert_hashed [DecidableEq K] : SmallMap K V → K → V → Option V × SmallMap K V
  | ⟨MapHolder.Empty⟩, key, val =>
    let r := entriesInsert [] key val
    (r.1, ⟨MapHolder.Vec r.2⟩)
  | ⟨MapHolder.Map e⟩, key, val =>
    let r := entriesInsert e key val
    (r.1, ⟨MapHolder.Map r.2⟩)
  | ⟨MapHolder.Vec e⟩, key, val =>
    let want := e.length + 1
    let r := entriesInsert e key val
    if want < THRESHOLD then (r.1, ⟨MapHolder.Vec r.2⟩)
    else (r.1, ⟨MapHolder.Map r.2⟩)

/-- Mirrors `SmallMap::insert` (which hashes the key and calls
`insert_hashed`; hashes are modelled away). -/
def insert [DecidableEq K] (m : SmallMap K V) (key : K) (val : V) :
    Option V × SmallMap K V :=
  m.insert_hashed key val

/-- Mirrors `SmallMap::remove_hashed` (`shift_remove` on the indexed shape). -/
def remove_hashed [DecidableEq K] : SmallMap K V → K → Option V × SmallMap K V
  | ⟨MapHolder.Empty⟩, _ => (none, ⟨MapHolder.Empty⟩)
  | ⟨MapHolder.Vec e⟩, key =>
    let r := entriesRemove e key
    (r.1, ⟨MapHolder.Vec r.2⟩)
  | ⟨MapHolder.Map e⟩, key =>
    let r := entriesRemove e key
    (r.1, ⟨MapHolder.Map r.2⟩)

/-- Mirrors `SmallMap::reserve`: no-op for zero; on `Empty` allocates per
`with_capacity`; on `Vec` promotes when `additional + len > THRESHOLD`;
no-op on the indexed shape. -/
def reserve [DecidableEq K] (m : SmallMap K V) (additional : Nat) : SmallMap K V :=
  if additional = 0 then m
  else
    match m with
    | ⟨MapHolder.Empty⟩ => with_capacity additional
    | ⟨MapHolder.Vec e⟩ =>
      if additional + e.length > THRESHOLD then ⟨MapHolder.Map e⟩ else ⟨MapHolder.Vec e⟩
    | ⟨MapHolder.Map e⟩ => ⟨MapHolder.Map e⟩

/-- Mirrors `SmallMap::clear`: reset to the empty sentinel. -/
def clear (_ : SmallMap K V) : SmallMap K V := ⟨MapHolder.Empty⟩

/-- Mirrors `impl PartialEq for SmallMap`: two maps are equal iff they have
the same length and every key of `self` maps to the same value in `other`
(with a fast path when both are the empty sentinel). -/
def beq [DecidableEq K] [DecidableEq V] (self other : SmallMap K V) : Bool :=
  match self.state, other.state with
  | MapHolder.Empty, MapHolder.Empty => true
  | _, _ =>
    self.len == other.len &&
      self.entries.all (fun kv => other.get_hashed kv.1 == some kv.2)

/-- Mirrors `impl Hash for SmallMap`: the per-entry hashes (computed by an
ambient entry hasher, abstracted as `hE`) are combined by a wrapping `u64`
sum, i.e. a sum modulo `2 ^ 64`. -/
def hashWith (hE : K × V → Nat) (m : SmallMap K V) : Nat :=
  (m.entries.map hE).sum % 2 ^ 64

/-- Builds a map by inserting a list of entries in order into an initially
empty map (`SmallMap::new`), as the claims describe and as the
`FromIterator` impl in `small_map.rs` does modulo its capacity hint (which
never affects the entry sequence). -/
def ofList [DecidableEq K] (l : List (K × V)) : SmallMap K V :=
  l.foldl (fun m kv => (m.insert_hashed kv.1 kv.2).2) new

end SmallMap

/-- Whether the storage shape is the indexed map. -/
def MapHolder.isMap : MapHolder K V → Bool
  | MapHolder.Map _ => true
  | _ => false

/-- The storage invariant of claim C9: whenever the map is vector-backed, its
length is strictly below the promotion threshold. -/
def SmallMap.VecInv (m : SmallMap K V) : Prop :=
  ∀ e, m.state = MapHolder.Vec e → e.length < THRESHOLD

/-! ## Runtime values for the call protocol

The parameter collector stores Starlark values in slots and buffers.  For the
collector claims only a small value universe is needed: immediates, strings
(keyword names), the tuple built for an unfilled `*args` slot and the dict
built for an unfilled `**kwargs` slot.  The collector's kwargs buffer is a
`SmallMap` keyed by string values (`SmallMap<Value, Value>` in the source,
where every key inserted by `named` is a string); a dict's observable content
is its entry sequence. -/

inductive Val where
  | none : Val
  | bool (b : Bool) : Val
  | int (n : Int) : Val
  | str (s : String) : Val
  | tuple (xs : List Val) : Val
  | dict (entries : List (String × Val)) : Val

/-- Mirrors `enum FunctionError` in `parameters.rs`. -/
inductive FunctionError where
  | MissingParameter (name function : String)
  | ExtraPositionalParameters (count : Nat) (function : String)
  | ExtraNamedParameters (names : List String) (function : String)
  | RepeatedParameter (name : String)
  | ArgsValueIsNotString
  | ArgsArrayIsNotIterable
  | KWArgsIsNotDict
deriving DecidableEq

/-- Mirrors `enum ParameterDefault` in `parameters.rs`. -/
inductive ParameterDefault (V : Type) where
  | Required
  | Optional
  | Defaulted (v : V)
  | Args
  | KWargs

/-- Whether the kind is `Required`. -/
def ParameterDefault.isRequired : ParameterDefault V → Bool
  | ParameterDefault.Required => true
  | _ => false

/-- Whether the kind is `Args`. -/
def ParameterDefault.isArgsKind : ParameterDefault V → Bool
  | ParameterDefault.Args => true
  | _ => false

/-- Whether the kind is `KWargs`. -/
def ParameterDefault.isKWargsKind : ParameterDefault V → Bool
  | ParameterDefault.KWargs => true
  | _ => false

/-- Mirrors `struct ParametersSpec` in `parameters.rs`. -/
structure ParametersSpec (V : Type) where
  function_name : String
  names : List (String × ParameterDefault V)
  indices : SmallMap String Nat
  positional : Nat
  no_args : Bool
  args : Option Nat
  kwargs : Option Nat

namespace ParametersSpec

/-- Mirrors `ParametersSpec::new`. -/
def new (function_name : String) : ParametersSpec V :=
  ⟨function_name, [], SmallMap.new, 0, false, Option.none, Option.none⟩

/-- Mirrors the private `ParametersSpec::add`: push the name and kind, record
its index, and extend the positionally-fillable range unless `*args` or
`no_args` has been seen. -/
def add (p : ParametersSpec V) (name : String) (val : ParameterDefault V) :
    ParametersSpec V :=
  let i := p.names.length
  { p with
    names := p.names ++ [(name, val)]
    indices := (p.indices.insert_hashed name i).2
    positional :=
      if p.args = Option.none ∧ p.no_args = false then i + 1 else p.positional }

/-- Mirrors `ParametersSpec::required`. -/
def required (p : ParametersSpec V) (name : String) : ParametersSpec V :=
  p.add name ParameterDefault.Required

/-- Mirrors `ParametersSpec::optional`. -/
def optional (p : ParametersSpec V) (name : String) : ParametersSpec V :=
  p.add name ParameterDefault.Optional

/-- Mirrors `ParametersSpec::defaulted`. -/
def defaulted (p : ParametersSpec V) (name : String) (val : V) : ParametersSpec V :=
  p.add name (ParameterDefault.Defaulted val)

/-- Mirrors `ParametersSpec::args`: pushes the `*args` entry (without an
index entry, and without extending `positional`). -/
def argsParam (p : ParametersSpec V) (name : String) : ParametersSpec V :=
  { p with
    names := p.names ++ [(name, ParameterDefault.Args)]
    args := some p.names.length }

/-- Mirrors `ParametersSpec::no_args`. -/
def noArgsParam (p : ParametersSpec V) : ParametersSpec V :=
  { p with no_args := true }

/-- Mirrors `ParametersSpec::kwargs`: pushes the `**kwargs` entry (without an
index entry). -/
def kwargsParam (p : ParametersSpec V) (name : String) : ParametersSpec V :=
  { p with
    names := p.names ++ [(name, ParameterDefault.KWargs)]
    kwargs := some p.names.length }

/-- The `$` stripping done by `collect_repr` (`trim_start_matches('$')`). -/
def stripDollars (s : String) : String :=
  String.mk (s.data.dropWhile (fun c => c = '$'))

/-- One parameter's rendering inside `ParametersSpec::collect_repr`. -/
def paramRepr : String × ParameterDefault V → String
  | (name, ParameterDefault.Required) => stripDollars name
  | (name, ParameterDefault.Optional) => stripDollars name ++ " = ..."
  | (name, ParameterDefault.Defaulted _) => stripDollars name ++ " = ..."
  | (_, ParameterDefault.Args) => "*args"
  | (_, ParameterDefault.KWargs) => "**kwargs"

/-- Mirrors `ParametersSpec::signature` / `collect_repr`: the function name
followed by the comma-separated parameter renderings in parentheses. -/
def signature (p : ParametersSpec V) : String :=
  p.function_name ++ "(" ++ String.intercalate ", " (p.names.map paramRepr) ++ ")"

end ParametersSpec

/-- Mirrors `struct ParametersCollect` in `parameters.rs`.  A slot holds
`Option.none` while unassigned (`ValueRef::new_unassigned`); the `Ref`-cell
indirection of `ValueRef` is immaterial here because the collector creates
only direct cells. -/
structure ParametersCollect where
  params : ParametersSpec Val
  slots : List (Option Val)
  only_positional : Bool
  next_position : Nat
  args : List Val
  kwargs : SmallMap String Val
  err : Option FunctionError

/-- Mirrors `ParametersSpec::collect`: slots sized
`max slots names.len()`, all unassigned. -/
def ParametersSpec.collect (p : ParametersSpec Val) (slots : Nat) : ParametersCollect :=
  { params := p
    slots := List.replicate (max slots p.names.length) Option.none
    only_positional := true
    next_position := 0
    args := []
    kwargs := SmallMap.new
    err := Option.none }

namespace ParametersCollect

/-- Mirrors `ParametersCollect::set_err`: only the first error is kept. -/
def set_err (c : ParametersCollect) (e : FunctionError) : ParametersCollect :=
  if c.err = Option.none then { c with err := some e } else c

/-- Mirrors `ParametersCollect::positional`: while positions remain below the
spec's `positional` count, fill the next slot (skipping the already-bound
check on the all-positional fast path) or record `RepeatedParameter`;
otherwise push onto the args-splat buffer. -/
def positional (c : ParametersCollect) (val : Val) : ParametersCollect :=
  if c.next_position < c.params.positional then
    if c.only_positional ||
        (match c.slots.get? c.next_position with
          | some Option.none => true
          | _ => false) then
      { c with
        slots := c.slots.set c.next_position (some val)
        next_position := c.next_position + 1 }
    else
      c.set_err (FunctionError.RepeatedParameter
        (((c.params.names.get? c.next_position).map Prod.fst).getD ""))
  else
    { c with args := c.args ++ [val] }

/-- Mirrors `ParametersCollect::named`: clear the fast path, look the name up
in the spec's index; if present fill that slot (recording the repeat if it was
already bound), otherwise insert into the kwargs-splat buffer (recording the
repeat if the name was already buffered). -/
def named (c : ParametersCollect) (name : String) (val : Val) : ParametersCollect :=
  let c := { c with only_positional := false }
  match c.params.indices.get_hashed name with
  | Option.none =>
    let r := c.kwargs.insert_hashed name val
    let c := { c with kwargs := r.2 }
    if r.1.isSome then c.set_err (FunctionError.RepeatedParameter name) else c
  | some i =>
    let repeated :=
      match c.slots.get? i with
      | some (some _) => true
      | _ => false
    let c := { c with slots := c.slots.set i (some val) }
    if repeated then c.set_err (FunctionError.RepeatedParameter name) else c

/-- The slot-resolution loop of `ParametersCollect::done`: walk
`names.iter().zip(slots.iter_mut())`; an already-filled slot is skipped; an
unfilled slot is resolved by its kind — `Required` returns `MissingParameter`,
`Optional` stays unassigned, `Defaulted` is filled with the default, `Args`
is filled with a tuple of the taken args buffer, `KWargs` with a dict of the
taken kwargs buffer (`mem::take` empties the buffer).  Returns the final
slots together with the remaining buffers. -/
def doneSlots :
    List (String × ParameterDefault Val) → List (Option Val) → List Val →
    SmallMap String Val → String →
    Except FunctionError (List (Option Val) × List Val × SmallMap String Val)
  | [], slots, args, kwargs, _ => Except.ok (slots, args, kwargs)
  | _ :: _, [], args, kwargs, _ => Except.ok ([], args, kwargs)
  | (name, d) :: ns, slot :: ss, args, kwargs, sig =>
    match slot with
    | some v =>
      (doneSlots ns ss args kwargs sig).map (fun r => (some v :: r.1, r.2))
    | Option.none =>
      match d with
      | ParameterDefault.Required =>
        Except.error (FunctionError.MissingParameter name sig)
      | ParameterDefault.Optional =>
        (doneSlots ns ss args kwargs sig).map (fun r => (Option.none :: r.1, r.2))
      | ParameterDefault.Defaulted x =>
        (doneSlots ns ss args kwargs sig).map (fun r => (some x :: r.1, r.2))
      | ParameterDefault.Args =>
        (doneSlots ns ss [] kwargs sig).map (fun r => (some (Val.tuple args) :: r.1, r.2))
      | ParameterDefault.KWargs =>
        (doneSlots ns ss args SmallMap.new sig).map
          (fun r => (some (Val.dict kwargs.entries) :: r.1, r.2))

/-- Mirrors `ParametersCollect::done`: surface a recorded error first; then
run the slot-resolution loop; then — in this order — fail with
`ExtraNamedParameters` if the kwargs buffer is non-empty, and with
`ExtraPositionalParameters` if the args buffer is non-empty. -/
def done (c : ParametersCollect) : Except FunctionError (List (Option Val)) :=
  match c.err with
  | some e => Except.error e
  | Option.none =>
    match doneSlots c.params.names c.slots c.args c.kwargs c.params.signature with
    | Except.error e => Except.error e
    | Except.ok (slots, args, kwargs) =>
      if !kwargs.is_empty then
        Except.error (FunctionError.ExtraNamedParameters kwargs.keys c.params.signature)
      else if !args.isEmpty then
        Except.error (FunctionError.ExtraPositionalParameters args.length c.params.signature)
      else
        Except.ok slots

end ParametersCollect

/-- The fast-path invariant of the collector: while `only_positional` holds,
no slot at or beyond `next_position` has been assigned. -/
def ParametersCollect.OnlyPosInv (c : ParametersCollect) : Prop :=
  c.only_positional = true →
    ∀ j, c.next_position ≤ j → j < c.slots.length → c.slots.get? j = some Option.none

/-- A concrete example specification `f(a, b = 7, *args, **kw)`, used by the
witnesses below. -/
def exampleSpec : ParametersSpec Val :=
  ((((ParametersSpec.new "f").required "a").defaulted "b"
    (Val.int 7)).argsParam "args").kwargsParam "kw"

/-! ## Scope resolver (scope.rs) -/

/-- Mirrors `struct ScopeNames` in `scope.rs`.  The `mp: HashMap<String,
usize>` is modelled as an association list with first-match lookup; since a
name is inserted at most once, lookups are insensitive to the HashMap's
unordered nature. -/
structure ScopeNames where
  used : Nat
  mp : List (String × Nat)
  parent : List (Nat × Nat)

/-- The `ScopeNames::default()` state. -/
def ScopeNames.empty : ScopeNames := ⟨0, [], []⟩

/-- Mirrors `ScopeNames::get_name`. -/
def ScopeNames.get_name (s : ScopeNames) (name : String) : Option Nat :=
  entriesGet s.mp name

/-- Mirrors `ScopeNames::add_name` (with `next_slot` inlined): an existing
name keeps its slot; a new name receives the next free slot `used`, which is
then bumped. -/
def ScopeNames.add_name (s : ScopeNames) (name : String) : Nat × ScopeNames :=
  match entriesGet s.mp name with
  | some v => (v, s)
  | Option.none =>
    (s.used, { s with used := s.used + 1, mp := s.mp ++ [(name, s.used)] })

/-- Mirrors `ScopeNames::copy_parent`: add the (fresh) name and record the
upvalue pair `(parentSlot, childSlot)`. -/
def ScopeNames.copy_parent (s : ScopeNames) (parentSlot : Nat) (name : String) :
    Nat × ScopeNames :=
  let r := s.add_name name
  (r.1, { r.2 with parent := r.2.parent ++ [(parentSlot, r.1)] })

/-- Mirrors `enum Slot` in `scope.rs`. -/
inductive Slot where
  | Module (i : Nat)
  | Local (i : Nat)
deriving DecidableEq

/-- Mirrors `struct Scope` in `scope.rs`.  `locals` is kept innermost-first
(the Rust `Vec` pushes at the end and searches from the end).  The module
table is `MutableNames`, whose source file is not under `src/`; modelled from
the spec as a name-to-slot table.  The comprehension `unscopes` stack is
omitted: no claim involves `enter_compr`/`add_compr`/`exit_compr`, and the
operations modelled here never touch it. -/
structure Scope where
  module : List (String × Nat)
  locals : List ScopeNames

/-- Mirrors `Scope::enter_def`: a fresh `ScopeNames` takes the parameters in
declaration order first, then the names defined in the body.  The body names
come from `Stmt::collect_defines` (AST code not under `src/`), which fills an
unordered `HashMap`; they are therefore passed here as an arbitrary list. -/
def Scope.enter_def (sc : Scope) (params : List String) (defines : List String) :
    Scope :=
  let names0 := params.foldl (fun a p => (a.add_name p).2) ScopeNames.empty
  let names := defines.foldl (fun a p => (a.add_name p).2) names0
  { sc with locals := names :: sc.locals }

/-- The search-and-copy loop of `Scope::get_name` over the local scopes,
innermost first: the innermost scope holding the name wins; on the way back
out, `copy_parent` pushes an upvalue entry into every intervening scope. -/
def getNameLocals (name : String) : List ScopeNames → Option (Nat × List ScopeNames)
  | [] => Option.none
  | s :: rest =>
    match s.get_name name with
    | some v => some (v, s :: rest)
    | Option.none =>
      match getNameLocals name rest with
      | Option.none => Option.none
      | some (v, rest') =>
        let r := s.copy_parent v name
        some (r.1, r.2 :: rest')

/-- Mirrors `Scope::get_name`: search the local scopes from the innermost
outwards (materialising upvalue entries on the way), then fall back to the
module table. -/
def Scope.get_name (sc : Scope) (name : String) : Option Slot × Scope :=
  match getNameLocals name sc.locals with
  | some (v, locals') => (some (Slot.Local v), { sc with locals := locals' })
  | Option.none =>
    match entriesGet sc.module name with
    | Option.none => (Option.none, sc)
    | some v => (some (Slot.Module v), sc)

/-- The slot table a sequence of fresh names receives starting at `base`:
name `i` of the list is bound to slot `base + i`. -/
def enumSlots (base : Nat) : List String → List (String × Nat)
  | [] => []
  | x :: xs => (x, base) :: enumSlots (base + 1) xs

/-! ## Value pointers and get_ref (value.rs)

The tagged one-word pointer (`pointer.rs`, not under `src/`) is modelled by
its unpacking: a `Value` is characterised by the `PointerUnpack`-style sum it
unpacks to.  The user bit (Ref-cell marker) is not modelled: `get_ref` never
reads it.  Boxed `SimpleValue`/`ComplexValue` payloads are opaque tokens; a
`Mutable` entry carries the dynamic borrow state of its `RefCell`, and a
`ThawOnWrite` entry the state of its `ThawableCell`, so that the claim about
borrowing is expressible. -/

/-- Opaque token for a boxed user object. -/
structure Obj where
  id : Nat
deriving DecidableEq

/-- The dynamic borrow state of a `RefCell`. -/
inductive BorrowState where
  | free
  | sharedBorrow
  | mutBorrow
deriving DecidableEq

/-- Mirrors `enum FrozenValueMem` in `value.rs`. -/
inductive FrozenValueMem where
  | Uninitialized
  | Blackhole
  | Str (s : String)
  | Simple (o : Obj)
deriving DecidableEq

/-- The unpacking of a `FrozenValue` pointer (its `Ptr2` arm is `Void`). -/
inductive FrozenPointer where
  | Ptr1 (m : FrozenValueMem)
  | Unassigned
  | nonePtr
  | boolPtr (b : Bool)
  | intPtr (i : Int)
deriving DecidableEq

/-- Mirrors `struct FrozenValue`, characterised by its unpacking. -/
structure FrozenValue where
  unpack : FrozenPointer
deriving DecidableEq

mutual

/-- Mirrors `enum ValueMem` in `value.rs`. -/
inductive ValueMem where
  | Uninitialized
  | Forward (fv : FrozenValue)
  | Copied (v : Value)
  | Blackhole
  | Str (s : String)
  | Simple (o : Obj)
  | Immutable (o : Obj)
  | Mutable (borrow : BorrowState) (o : Obj)
  | ThawOnWrite (thawed : Bool)
  | Ref (cell : Value)
  | CallEnter (v : Value)
  | CallExit

/-- Mirrors `struct Value`, characterised by the unpacking of its tagged
pointer. -/
inductive Value where
  | mk (unpack : Pointer)

/-- The unpacking of a `Value` pointer (`PointerUnpack` from `pointer.rs`). -/
inductive Pointer where
  | Ptr1 (m : FrozenValueMem)
  | Ptr2 (m : ValueMem)
  | Unassigned
  | nonePtr
  | boolPtr (b : Bool)
  | intPtr (i : Int)

end

/-- The borrowed `&dyn StarlarkValue` target that a successful `get_ref`
hands out. -/
inductive Handle where
  | noneHandle
  | boolHandle (b : Bool)
  | intHandle (i : Int)
  | strHandle (s : String)
  | simpleHandle (o : Obj)
  | complexHandle (o : Obj)
deriving DecidableEq

/-- The observable outcome of a `get_ref` call: a borrowed handle (`Some` in
Rust), `None`, or a panic (`unexpected` / unassigned). -/
inductive GetRefResult where
  | found (h : Handle)
  | noHandle
  | panicked (msg : String)
deriving DecidableEq

/-- Mirrors `FrozenValueMem::get_ref`: `Str` and `Simple` yield handles;
every other variant panics through `unexpected`. -/
def FrozenValueMem.get_ref : FrozenValueMem → GetRefResult
  | FrozenValueMem.Str s => GetRefResult.found (Handle.strHandle s)
  | FrozenValueMem.Simple o => GetRefResult.found (Handle.simpleHandle o)
  | _ => GetRefResult.panicked "FrozenValueMem::get_ref, unexpected variant"

/-- Mirrors `FrozenValue::get_ref`: immediates yield their handles,
heap pointers delegate to `FrozenValueMem::get_ref`, `Unassigned` panics. -/
def FrozenValue.get_ref (fv : FrozenValue) : GetRefResult :=
  match fv.unpack with
  | FrozenPointer.Ptr1 m => m.get_ref
  | FrozenPointer.Unassigned => GetRefResult.panicked "get_ref on Unassigned"
  | FrozenPointer.nonePtr => GetRefResult.found Handle.noneHandle
  | FrozenPointer.boolPtr b => GetRefResult.found (Handle.boolHandle b)
  | FrozenPointer.intPtr i => GetRefResult.found (Handle.intHandle i)

/-- Mirrors `ValueMem::get_ref`: `Forward` chases the frozen value (a panic
there propagates), `Str`/`Simple`/`Immutable` yield handles, `Mutable` and
`ThawOnWrite` yield `None` unconditionally — the borrow state is never
consulted — and every other variant panics through `unexpected`. -/
def ValueMem.get_ref : ValueMem → GetRefResult
  | ValueMem.Forward fv => fv.get_ref
  | ValueMem.Str s => GetRefResult.found (Handle.strHandle s)
  | ValueMem.Simple o => GetRefResult.found (Handle.simpleHandle o)
  | ValueMem.Immutable o => GetRefResult.found (Handle.complexHandle o)
  | ValueMem.Mutable _ _ => GetRefResult.noHandle
  | ValueMem.ThawOnWrite _ => GetRefResult.noHandle
  | _ => GetRefResult.panicked "ValueMem::get_ref, unexpected variant"

/-- Mirrors `Value::get_ref`: immediates yield their handles, frozen pointers
delegate to `FrozenValueMem::get_ref`, mutable-heap pointers delegate to
`ValueMem::get_ref`, `Unassigned` panics. -/
def Value.get_ref : Value → GetRefResult
  | Value.mk (Pointer.Ptr1 m) => m.get_ref
  | Value.mk (Pointer.Ptr2 m) => m.get_ref
  | Value.mk Pointer.Unassigned => GetRefResult.panicked "get_ref on Unassigned"
  | Value.mk Pointer.nonePtr => GetRefResult.found Handle.noneHandle
  | Value.mk (Pointer.boolPtr b) => GetRefResult.found (Handle.boolHandle b)
  | Value.mk (Pointer.intPtr i) => GetRefResult.found (Handle.intHandle i)

/-- Whether the value points at a mutable-heap entry in the `Mutable` or
`ThawOnWrite` variant. -/
def Value.pointsAtMutableVariant : Value → Prop
  | Value.mk (Pointer.Ptr2 (ValueMem.Mutable _ _)) => True
  | Value.mk (Pointer.Ptr2 (ValueMem.ThawOnWrite _)) => True
  | _ => False

/-- Whether the heap entry the value points at is currently mutably
borrowed. -/
def Value.isMutablyBorrowed : Value → Prop
  | Value.mk (Pointer.Ptr2 (ValueMem.Mutable BorrowState.mutBorrow _)) => True
  | _ => False

/-! ## Entry-list lemmas -/

theorem entriesInsert_of_not_mem [DecidableEq K] (l : List (K × V)) (key : K) (val : V)
    (h : key ∉ l.map Prod.fst) :
    entriesInsert l key val = (none, l ++ [(key, val)]) := by
  induction l with
  | nil => rfl
  | cons kv rest ih =>
    simp only [List.map_cons, List.mem_cons] at h
    push_neg at h
    simp only [entriesInsert, if_neg (Ne.symm h.1), ih h.2, List.cons_append]

theorem entriesInsert_fst [DecidableEq K] (l : List (K × V)) (key : K) (val : V) :
    (entriesInsert l key val).1 = entriesGet l key := by
  induction l with
  | nil => rfl
  | cons kv rest ih =>
    by_cases h : kv.1 = key
    · simp only [entriesInsert, entriesGet, if_pos h]
    · simp only [entriesInsert, entriesGet, if_neg h, ih]

theorem entriesInsert_keys [DecidableEq K] (l : List (K × V)) (key : K) (val : V)
    (h : key ∈ l.map Prod.fst) :
    (entriesInsert l key val).2.map Prod.fst = l.map Prod.fst := by
  induction l with
  | nil => simp at h
  | cons kv rest ih =>
    by_cases hk : kv.1 = key
    · simp only [entriesInsert, if_pos hk, List.map_cons]
    · simp only [List.map_cons, List.mem_cons] at h
      rcases h with h | h
      · exact absurd h.symm hk
      · simp only [entriesInsert, if_neg hk, List.map_cons, ih h]

theorem entriesGet_insert_self [DecidableEq K] (l : List (K × V)) (key : K) (val : V) :
    entriesGet (entriesInsert l key val).2 key = some val := by
  induction l with
  | nil => simp [entriesInsert, entriesGet]
  | cons kv rest ih =>
    by_cases h : kv.1 = key
    · simp only [entriesInsert, if_pos h, entriesGet, if_pos h]
    · simp only [entriesInsert, if_neg h, entriesGet, if_neg h, ih]

theorem entriesInsert_length [DecidableEq K] (l : List (K × V)) (key : K) (val : V) :
    (entriesInsert l key val).2.length ≤ l.length + 1 := by
  induction l with
  | nil => simp [entriesInsert]
  | cons kv rest ih =>
    by_cases h : kv.1 = key
    · simp only [entriesInsert, if_pos h, List.length_cons]
      omega
    · simp only [entriesInsert, if_neg h, List.length_cons]
      omega

theorem entriesRemove_length [DecidableEq K] (l : List (K × V)) (key : K) :
    (entriesRemove l key).2.length ≤ l.length := by
  induction l with
  | nil => simp [entriesRemove]
  | cons kv rest ih =>
    by_cases h : kv.1 = key
    · simp only [entriesRemove, if_pos h, List.length_cons]
      omega
    · simp only [entriesRemove, if_neg h, List.length_cons]
      omega

theorem entriesGet_eq_some_of_mem [DecidableEq K] (l : List (K × V)) (key : K) (val : V)
    (hmem : (key, val) ∈ l) (hnd : (l.map Prod.fst).Nodup) :
    entriesGet l key = some val := by
  induction l with
  | nil => simp at hmem
  | cons kv rest ih =>
    simp only [List.map_cons, List.nodup_cons] at hnd
    rcases List.mem_cons.1 hmem with h | h
    · subst h
      simp [entriesGet]
    · have hne : kv.1 ≠ key := by
        intro he
        exact hnd.1 (he ▸ (List.mem_map.2 ⟨(key, val), h, rfl⟩))
      simp only [entriesGet, if_neg hne]
      exact ih h hnd.2

theorem entriesGet_none_iff [DecidableEq K] (l : List (K × V)) (key : K) :
    entriesGet l key = none ↔ key ∉ l.map Prod.fst := by
  induction l with
  | nil => simp [entriesGet]
  | cons kv rest ih =>
    by_cases h : kv.1 = key
    · simp [entriesGet, if_pos h, h]
    · simp only [entriesGet, if_neg h, List.map_cons, List.mem_cons, ih]
      constructor
      · intro hn
        intro hc
        rcases hc with hc | hc
        · exact h hc.symm
        · exact hn hc
      · intro hn
        intro hc
        exact hn (Or.inr hc)

/-! ## SmallMap lemmas -/

theorem SmallMap.new_entries [DecidableEq K] : (SmallMap.new : SmallMap K V).entries = [] := rfl

theorem SmallMap.insert_hashed_entries [DecidableEq K] (m : SmallMap K V) (key : K) (val : V) :
    (m.insert_hashed key val).2.entries = (entriesInsert m.entries key val).2 := by
  rcases m with ⟨s⟩
  cases s with
  | Empty => rfl
  | Vec e =>
    simp only [insert_hashed, entries]
    by_cases h : e.length + 1 < THRESHOLD
    · simp [h, entries]
    · simp [h, entries]
  | Map e => rfl

theorem SmallMap.insert_hashed_fst [DecidableEq K] (m : SmallMap K V) (key : K) (val : V) :
    (m.insert_hashed key val).1 = entriesGet m.entries key := by
  rcases m with ⟨s⟩
  cases s with
  | Empty => rfl
  | Vec e =>
    simp only [insert_hashed, entries]
    by_cases h : e.length + 1 < THRESHOLD
    · simp [h, entriesInsert_fst]
    · simp [h, entriesInsert_fst]
  | Map e =>
    simp [insert_hashed, entries, entriesInsert_fst]

theorem SmallMap.get_hashed_eq_entriesGet [DecidableEq K] (m : SmallMap K V) (key : K) :
    m.get_hashed key = entriesGet m.entries key := by
  rcases m with ⟨s⟩
  cases s <;> rfl

/-- Folding inserts of fresh, mutually distinct keys appends the entries in
order: the entry sequence of `ofList l` is `l` itself when keys are unique. -/
theorem SmallMap.foldl_insert_entries [DecidableEq K] (l : List (K × V)) :
    ∀ m : SmallMap K V, (l.map Prod.fst).Nodup →
    (∀ k, k ∈ l.map Prod.fst → entriesGet m.entries k = none) →
    (l.foldl (fun m kv => (m.insert_hashed kv.1 kv.2).2) m).entries = m.entries ++ l := by
  induction l with
  | nil => intro m _ _; simp
  | cons kv rest ih =>
    intro m hnd hfresh
    simp only [List.map_cons, List.nodup_cons] at hnd
    simp only [List.foldl_cons]
    have hget : entriesGet m.entries kv.1 = none := by
      apply hfresh
      simp
    have hnot : kv.1 ∉ m.entries.map Prod.fst := (entriesGet_none_iff _ _).1 hget
    have hins : (m.insert_hashed kv.1 kv.2).2.entries = m.entries ++ [kv] := by
      rw [SmallMap.insert_hashed_entries, entriesInsert_of_not_mem _ _ _ hnot]
    rw [ih _ hnd.2 ?_, hins]
    · simp
    · intro k hk
      rw [hins, (entriesGet_none_iff _ _)]
      simp only [List.map_append, List.mem_append, List.map_cons]
      intro hc
      rcases hc with hc | hc
      · exact (entriesGet_none_iff _ _).1 (hfresh k (by simp [hk])) hc
      · simp only [List.map_nil, List.mem_singleton] at hc
        exact hnd.1 (hc ▸ hk)

theorem SmallMap.ofList_entries [DecidableEq K] (l : List (K × V))
    (hnd : (l.map Prod.fst).Nodup) :
    (SmallMap.ofList l).entries = l := by
  have := SmallMap.foldl_insert_entries l SmallMap.new hnd (fun k _ => rfl)
  simpa [SmallMap.ofList] using this

theorem SmallMap.ofList_state_empty [DecidableEq K] (l : List (K × V))
    (h : l = []) : (SmallMap.ofList l : SmallMap K V).state = MapHolder.Empty := by
  subst h
  rfl

theorem SmallMap.beq_true_of [DecidableEq K] [DecidableEq V] (m1 m2 : SmallMap K V)
    (hlen : m1.len = m2.len)
    (hall : ∀ kv ∈ m1.entries, m2.get_hashed kv.1 = some kv.2) :
    m1.beq m2 = true := by
  rcases m1 with ⟨s1⟩
  rcases m2 with ⟨s2⟩
  cases s1 <;> cases s2
  case Empty.Empty => rfl
  all_goals
    simp_all [SmallMap.beq, SmallMap.len, SmallMap.entries, List.all_eq_true, beq_iff_eq]
  all_goals
    exact hall

theorem findIdx_fst_congr [DecidableEq K] (key : K) :
    ∀ (l1 l2 : List (K × V)) (i : Nat), l1.map Prod.fst = l2.map Prod.fst →
    l1.findIdx? (fun kv => kv.1 = key) i = l2.findIdx? (fun kv => kv.1 = key) i := by
  intro l1
  induction l1 with
  | nil =>
    intro l2 i h
    cases l2 with
    | nil => rfl
    | cons b t => simp at h
  | cons a t1 ih =>
    intro l2 i h
    cases l2 with
    | nil => simp at h
    | cons b t2 =>
      simp only [List.map_cons, List.cons.injEq] at h
      simp only [List.findIdx?_cons, h.1, ih t2 (i + 1) h.2]

/-! ## SmallMap claim theorems -/

/-- C5: two SmallMaps built by inserting the same multiset of unique
key-value entries in any two orders are equal under the map's equality test
(same length, every key of one maps to the same value in the other), and
their hashes — commutative wrapping sums of per-entry hashes — coincide for
every per-entry hash function. -/
theorem claim_C5 [DecidableEq K] [DecidableEq V] (l1 l2 : List (K × V))
    (hperm : l1.Perm l2) (hnd : (l1.map Prod.fst).Nodup) (hE : K × V → Nat) :
    SmallMap.beq (SmallMap.ofList l1) (SmallMap.ofList l2) = true ∧
    SmallMap.hashWith hE (SmallMap.ofList l1) =
      SmallMap.hashWith hE (SmallMap.ofList l2) := by
  have hnd2 : (l2.map Prod.fst).Nodup := ((hperm.map Prod.fst).nodup_iff).1 hnd
  have e1 : (SmallMap.ofList l1).entries = l1 := SmallMap.ofList_entries l1 hnd
  have e2 : (SmallMap.ofList l2).entries = l2 := SmallMap.ofList_entries l2 hnd2
  constructor
  · apply SmallMap.beq_true_of
    · simp only [SmallMap.len, e1, e2]
      exact hperm.length_eq
    · intro kv hkv
      rw [e1] at hkv
      rw [SmallMap.get_hashed_eq_entriesGet, e2]
      exact entriesGet_eq_some_of_mem l2 kv.1 kv.2 (hperm.mem_iff.1 hkv) hnd2
  · simp only [SmallMap.hashWith, e1, e2]
    rw [(hperm.map hE).sum_eq]

/-- C5 witness: the order-independence theorem applied to a concrete pair of
insertion orders. -/
theorem claim_C5_witness :
    SmallMap.beq (SmallMap.ofList [(1, 10), (2, 20)]) (SmallMap.ofList [(2, 20), (1, 10)]) = true ∧
    SmallMap.hashWith (fun kv => kv.1 + kv.2) (SmallMap.ofList [(1, 10), (2, 20)]) =
      SmallMap.hashWith (fun kv => kv.1 + kv.2) (SmallMap.ofList [(2, 20), (1, 10)]) :=
  claim_C5 [(1, 10), (2, 20)] [(2, 20), (1, 10)] (by decide) (by decide) (fun kv => kv.1 + kv.2)

/-- C6: inserting at a key already present returns the previously associated
value, leaves the iteration order of the keys unchanged, and leaves the
positional index of every key unchanged. -/
theorem claim_C6 [DecidableEq K] (m : SmallMap K V) (k : K) (v w : V)
    (h : m.get_hashed k = some w) :
    (m.insert_hashed k v).1 = some w ∧
    (m.insert_hashed k v).2.keys = m.keys ∧
    ∀ k2, (m.insert_hashed k v).2.get_index_of k2 = m.get_index_of k2 := by
  rw [SmallMap.get_hashed_eq_entriesGet] at h
  have hmem : k ∈ m.entries.map Prod.fst := by
    by_contra hc
    rw [(entriesGet_none_iff m.entries k).2 hc] at h
    exact Option.noConfusion h
  have hkeys : (m.insert_hashed k v).2.keys = m.keys := by
    simp only [SmallMap.keys, SmallMap.insert_hashed_entries]
    exact entriesInsert_keys m.entries k v hmem
  refine ⟨?_, hkeys, ?_⟩
  · rw [SmallMap.insert_hashed_fst, h]
  · intro k2
    simp only [SmallMap.get_index_of]
    apply findIdx_fst_congr
    simpa [SmallMap.keys] using hkeys

/-- C6 witness: replacement at an existing key on a concrete map. -/
theorem claim_C6_witness :
    ((SmallMap.ofList [(1, 5), (2, 6)]).insert_hashed 1 9).1 = some 5 ∧
    ((SmallMap.ofList [(1, 5), (2, 6)]).insert_hashed 1 9).2.keys =
      (SmallMap.ofList [(1, 5), (2, 6)]).keys ∧
    ((SmallMap.ofList [(1, 5), (2, 6)]).insert_hashed 1 9).2.get_index_of 2 =
      (SmallMap.ofList [(1, 5), (2, 6)]).get_index_of 2 := by
  have h := claim_C6 (SmallMap.ofList [(1, 5), (2, 6)]) 1 9 5 (by decide)
  exact ⟨h.1, h.2.1, h.2.2 2⟩

/-- C7: after inserting a sequence of distinct keys into an initially empty
SmallMap — including sequences long enough to cross the promotion threshold —
the map's length is the sequence's length and `get_index i` returns the i-th
inserted entry for every `i` below it. -/
theorem claim_C7 [DecidableEq K] (l : List (K × V))
    (hnd : (l.map Prod.fst).Nodup) :
    (SmallMap.ofList l).len = l.length ∧
    ∀ i, i < (SmallMap.ofList l).len → (SmallMap.ofList l).get_index i = l.get? i := by
  have e : (SmallMap.ofList l).entries = l := SmallMap.ofList_entries l hnd
  constructor
  · simp [SmallMap.len, e]
  · intro i _
    simp [SmallMap.get_index, e]

/-- C7 witness: a 14-entry insertion sequence, crossing the threshold of 12,
checked at the last index. -/
theorem claim_C7_witness :
    (SmallMap.ofList ((List.range 14).map (fun i => (i, i + 100)))).len = 14 ∧
    (SmallMap.ofList ((List.range 14).map (fun i => (i, i + 100)))).get_index 13 =
      some (13, 113) := by
  have h := claim_C7 ((List.range 14).map (fun i => (i, i + 100))) (by decide)
  refine ⟨by simpa using h.1, ?_⟩
  have h13 := h.2 13 (by rw [h.1]; decide)
  rw [h13]
  decide

/-- C9: the vector shape always holds strictly fewer than `THRESHOLD` entries
— the invariant is established by `new`, `with_capacity` and `clear` and
preserved by `insert_hashed` (= `insert`), `remove_hashed` (= `remove`) and
`reserve`; an insert that brings `len + 1` to the threshold promotes to the
indexed shape even when the key is already present (a pure replacement); and
the indexed shape is never demoted by `insert_hashed`, `remove_hashed` or
`reserve`. -/
theorem claim_C9 [DecidableEq K] :
    (SmallMap.VecInv (SmallMap.new : SmallMap K V)) ∧
    (∀ n, SmallMap.VecInv (SmallMap.with_capacity n : SmallMap K V)) ∧
    (∀ (m : SmallMap K V) k v, m.VecInv → (m.insert_hashed k v).2.VecInv) ∧
    (∀ (m : SmallMap K V) k, m.VecInv → (m.remove_hashed k).2.VecInv) ∧
    (∀ (m : SmallMap K V) n, m.VecInv → (m.reserve n).VecInv) ∧
    (∀ m : SmallMap K V, m.clear.VecInv) ∧
    (∀ (m : SmallMap K V) k v e, m.state = MapHolder.Vec e →
      e.length + 1 = THRESHOLD → k ∈ e.map Prod.fst →
      ((m.insert_hashed k v).2.state).isMap = true) ∧
    (∀ (m : SmallMap K V) k v, m.state.isMap = true →
      ((m.insert_hashed k v).2.state).isMap = true) ∧
    (∀ (m : SmallMap K V) k, m.state.isMap = true →
      ((m.remove_hashed k).2.state).isMap = true) ∧
    (∀ (m : SmallMap K V) n, m.state.isMap = true →
      ((m.reserve n).state).isMap = true) := by
  refine ⟨?_, ?_, ?_, ?_, ?_, ?_, ?_, ?_, ?_, ?_⟩
  · intro e he
    exact absurd he (by simp [SmallMap.new])
  · intro n e he
    simp only [SmallMap.with_capacity] at he
    by_cases h : n < THRESHOLD
    · rw [if_pos h] at he
      injection he with he
      subst he
      simp [THRESHOLD]
    · rw [if_neg h] at he
      exact absurd he (by simp)
  · intro m k v hinv e he
    rcases m with ⟨s⟩
    cases s with
    | Empty =>
      simp only [SmallMap.insert_hashed] at he
      injection he with he
      subst he
      simp [entriesInsert, THRESHOLD]
    | Map e0 => simp [SmallMap.insert_hashed] at he
    | Vec e0 =>
      have hlen : e0.length < THRESHOLD := hinv e0 rfl
      simp only [SmallMap.insert_hashed] at he
      by_cases h : e0.length + 1 < THRESHOLD
      · rw [if_pos h] at he
        injection he with he
        subst he
        calc (entriesInsert e0 k v).2.length ≤ e0.length + 1 := entriesInsert_length e0 k v
        _ < THRESHOLD := h
      · rw [if_neg h] at he
        exact absurd he (by simp)
  · intro m k hinv e he
    rcases m with ⟨s⟩
    cases s with
    | Empty =>
      simp only [SmallMap.remove_hashed] at he
      exact absurd he (by simp)
    | Map e0 => simp [SmallMap.remove_hashed] at he
    | Vec e0 =>
      have hlen : e0.length < THRESHOLD := hinv e0 rfl
      simp only [SmallMap.remove_hashed] at he
      injection he with he
      subst he
      calc (entriesRemove e0 k).2.length ≤ e0.length := entriesRemove_length e0 k
      _ < THRESHOLD := hlen
  · intro m n hinv e he
    rcases m with ⟨s⟩
    by_cases hn : n = 0
    · subst hn
      simp only [SmallMap.reserve, if_pos rfl] at he
      exact hinv e he
    · cases s with
      | Empty =>
        have hred : SmallMap.reserve (⟨MapHolder.Empty⟩ : SmallMap K V) n =
            SmallMap.with_capacity n := by
          unfold SmallMap.reserve
          rw [if_neg hn]
        rw [hred] at he
        simp only [SmallMap.with_capacity] at he
        by_cases h : n < THRESHOLD
        · rw [if_pos h] at he
          injection he with he
          subst he
          simp [THRESHOLD]
        · rw [if_neg h] at he
          exact absurd he (by simp)
      | Map e0 =>
        have hred : SmallMap.reserve (⟨MapHolder.Map e0⟩ : SmallMap K V) n =
            ⟨MapHolder.Map e0⟩ := by
          unfold SmallMap.reserve
          rw [if_neg hn]
        rw [hred] at he
        exact absurd he (by simp)
      | Vec e0 =>
        have hlen : e0.length < THRESHOLD := hinv e0 rfl
        have hred : SmallMap.reserve (⟨MapHolder.Vec e0⟩ : SmallMap K V) n =
            if n + e0.length > THRESHOLD then ⟨MapHolder.Map e0⟩
            else ⟨MapHolder.Vec e0⟩ := by
          unfold SmallMap.reserve
          rw [if_neg hn]
        rw [hred] at he
        by_cases h : n + e0.length > THRESHOLD
        · rw [if_pos h] at he
          exact absurd he (by simp)
        · rw [if_neg h] at he
          injection he with he
          subst he
          exact hlen
  · intro m e he
    exact absurd he (by simp [SmallMap.clear])
  · intro m k v e he hfull hmem
    rcases m with ⟨s⟩
    cases s with
    | Empty => exact absurd he (by simp)
    | Map e0 => exact absurd he (by simp)
    | Vec e0 =>
      injection he with he
      subst he
      simp only [SmallMap.insert_hashed]
      rw [if_neg (by omega)]
      rfl
  · intro m k v hm
    rcases m with ⟨s⟩
    cases s <;> simp_all [MapHolder.isMap, SmallMap.insert_hashed]
  · intro m k hm
    rcases m with ⟨s⟩
    cases s <;> simp_all [MapHolder.isMap, SmallMap.remove_hashed]
  · intro m n hm
    rcases m with ⟨s⟩
    cases s <;> simp_all [MapHolder.isMap, SmallMap.reserve]

/-- C9 witness: the invariant-preservation and promotion facts applied to
concrete maps: an insert on an 11-entry vector map, and the
replacement-promotes case at an existing key on an 11-entry vector map. -/
theorem claim_C9_witness :
    ((SmallMap.ofList ((List.range 5).map (fun i => (i, i)))).insert_hashed 7 7).2.VecInv ∧
    (((SmallMap.ofList ((List.range 11).map (fun i => (i, i)))).insert_hashed 0 99).2.state).isMap
      = true := by
  constructor
  · exact (claim_C9.2.2.1) _ 7 7 (by
      intro e he
      have : (SmallMap.ofList ((List.range 5).map (fun i => (i, i)))).state =
          MapHolder.Vec [(0,0),(1,1),(2,2),(3,3),(4,4)] := by decide
      rw [this] at he
      injection he with he
      subst he
      decide)
  · exact (claim_C9.2.2.2.2.2.2.1) _ 0 99 ((List.range 11).map (fun i => (i, i)))
      (by decide) (by decide) (by decide)

/-! ## Parameter collection lemmas -/

theorem doneSlots_ok_of_no_splat (ns : List (String × ParameterDefault Val)) :
    ∀ (ss : List (Option Val)) (args : List Val) (kwargs : SmallMap String Val)
      (sig : String),
    ns.all (fun nd => !nd.2.isArgsKind && !nd.2.isKWargsKind) = true →
    (ns.zip ss).all (fun p => !p.1.2.isRequired || p.2.isSome) = true →
    ∃ slots', ParametersCollect.doneSlots ns ss args kwargs sig =
      Except.ok (slots', args, kwargs) := by
  induction ns with
  | nil =>
    intro ss args kwargs sig _ _
    exact ⟨ss, rfl⟩
  | cons nd ns ih =>
    intro ss args kwargs sig hsplat hreq
    rcases nd with ⟨name, d⟩
    simp only [List.all_cons, Bool.and_eq_true, Bool.not_eq_true'] at hsplat
    cases ss with
    | nil => exact ⟨[], rfl⟩
    | cons s0 ss =>
      simp only [List.zip_cons_cons, List.all_cons, Bool.and_eq_true, Bool.or_eq_true,
        Bool.not_eq_true'] at hreq
      cases s0 with
      | some v =>
        obtain ⟨slots', hrec⟩ := ih ss args kwargs sig hsplat.2 hreq.2
        refine ⟨some v :: slots', ?_⟩
        simp only [ParametersCollect.doneSlots, hrec, Except.map]
      | none =>
        cases d with
        | Required =>
          rcases hreq.1 with h | h
          · simp [ParameterDefault.isRequired] at h
          · simp [Option.isSome] at h
        | Optional =>
          obtain ⟨slots', hrec⟩ := ih ss args kwargs sig hsplat.2 hreq.2
          refine ⟨Option.none :: slots', ?_⟩
          simp only [ParametersCollect.doneSlots, hrec, Except.map]
        | Defaulted x =>
          obtain ⟨slots', hrec⟩ := ih ss args kwargs sig hsplat.2 hreq.2
          refine ⟨some x :: slots', ?_⟩
          simp only [ParametersCollect.doneSlots, hrec, Except.map]
        | Args => simp [ParameterDefault.isArgsKind] at hsplat
        | KWargs => simp [ParameterDefault.isKWargsKind] at hsplat

theorem doneSlots_ok_get (ns : List (String × ParameterDefault Val)) :
    ∀ (ss : List (Option Val)) (args : List Val) (kwargs : SmallMap String Val)
      (sig : String) (slots' : List (Option Val))
      (rest : List Val × SmallMap String Val),
    ParametersCollect.doneSlots ns ss args kwargs sig = Except.ok (slots', rest) →
    (ns.filter (fun nd => nd.2.isArgsKind)).length ≤ 1 →
    (ns.filter (fun nd => nd.2.isKWargsKind)).length ≤ 1 →
    ∀ i nd s, ns.get? i = some nd → ss.get? i = some s →
      (∀ v, s = some v → slots'.get? i = some (some v)) ∧
      (s = Option.none →
        nd.2.isRequired = false ∧
        (nd.2 = ParameterDefault.Optional → slots'.get? i = some Option.none) ∧
        (∀ x, nd.2 = ParameterDefault.Defaulted x → slots'.get? i = some (some x)) ∧
        (nd.2 = ParameterDefault.Args →
          slots'.get? i = some (some (Val.tuple args))) ∧
        (nd.2 = ParameterDefault.KWargs →
          slots'.get? i = some (some (Val.dict kwargs.entries)))) := by
  induction ns with
  | nil =>
    intro ss args kwargs sig slots' rest _ _ _ i nd s hnd _
    simp at hnd
  | cons nd0 ns ih =>
    intro ss args kwargs sig slots' rest h hargs1 hkw1 i nd s hnd hs
    rcases nd0 with ⟨name0, d0⟩
    cases ss with
    | nil => simp at hs
    | cons s0 ss =>
      cases s0 with
      | some v0 =>
        simp only [ParametersCollect.doneSlots] at h
        cases hrec : ParametersCollect.doneSlots ns ss args kwargs sig with
        | error e => rw [hrec] at h; exact absurd h (by simp [Except.map])
        | ok r =>
          rw [hrec] at h
          simp only [Except.map, Except.ok.injEq, Prod.mk.injEq] at h
          obtain ⟨hslots, hrest⟩ := h
          cases i with
          | zero =>
            simp only [List.get?] at hnd hs
            injection hnd with hnd
            injection hs with hs
            subst hnd
            subst hs
            constructor
            · intro v hv
              injection hv with hv
              subst hv
              simp [← hslots]
            · intro habs
              exact absurd habs (by simp)
          | succ i =>
            simp only [List.get?] at hnd hs
            have hfa : (ns.filter (fun nd => nd.2.isArgsKind)).length ≤ 1 := by
              refine le_trans ?_ hargs1
              simp only [List.filter_cons]
              by_cases hc : (d0.isArgsKind = true) <;> simp [hc]
            have hfk : (ns.filter (fun nd => nd.2.isKWargsKind)).length ≤ 1 := by
              refine le_trans ?_ hkw1
              simp only [List.filter_cons]
              by_cases hc : (d0.isKWargsKind = true) <;> simp [hc]
            have := ih ss args kwargs sig r.1 r.2 (by rw [hrec]) hfa hfk i nd s hnd hs
            have htail : slots'.get? (i + 1) = r.1.get? i := by
              rw [← hslots]
              rfl
            constructor
            · intro v hv
              rw [htail]
              exact this.1 v hv
            · intro hv
              obtain ⟨h1, h2, h3, h4, h5⟩ := this.2 hv
              refine ⟨h1, ?_, ?_, ?_, ?_⟩
              · intro hk; rw [htail]; exact h2 hk
              · intro x hk; rw [htail]; exact h3 x hk
              · intro hk; rw [htail]; exact h4 hk
              · intro hk; rw [htail]; exact h5 hk
      | none =>
        cases d0 with
        | Required =>
          simp only [ParametersCollect.doneSlots] at h
          exact absurd h (by simp)
        | Optional =>
          simp only [ParametersCollect.doneSlots] at h
          cases hrec : ParametersCollect.doneSlots ns ss args kwargs sig with
          | error e => rw [hrec] at h; exact absurd h (by simp [Except.map])
          | ok r =>
            rw [hrec] at h
            simp only [Except.map, Except.ok.injEq, Prod.mk.injEq] at h
            obtain ⟨hslots, hrest⟩ := h
            cases i with
            | zero =>
              simp only [List.get?] at hnd hs
              injection hnd with hnd
              injection hs with hs
              subst hnd
              subst hs
              constructor
              · intro v hv
                exact absurd hv (by simp)
              · intro _
                refine ⟨rfl, ?_, ?_, ?_, ?_⟩
                · intro _; simp [← hslots]
                · intro x hx; exact absurd hx (by simp)
                · intro hx; exact absurd hx (by simp)
                · intro hx; exact absurd hx (by simp)
            | succ i =>
              simp only [List.get?] at hnd hs
              have hfa : (ns.filter (fun nd => nd.2.isArgsKind)).length ≤ 1 := by
                refine le_trans ?_ hargs1
                simp [List.filter_cons, ParameterDefault.isArgsKind]
              have hfk : (ns.filter (fun nd => nd.2.isKWargsKind)).length ≤ 1 := by
                refine le_trans ?_ hkw1
                simp [List.filter_cons, ParameterDefault.isKWargsKind]
              have := ih ss args kwargs sig r.1 r.2 (by rw [hrec]) hfa hfk i nd s hnd hs
              have htail : slots'.get? (i + 1) = r.1.get? i := by
                rw [← hslots]
                rfl
              constructor
              · intro v hv
                rw [htail]
                exact this.1 v hv
              · intro hv
                obtain ⟨h1, h2, h3, h4, h5⟩ := this.2 hv
                refine ⟨h1, ?_, ?_, ?_, ?_⟩
                · intro hk; rw [htail]; exact h2 hk
                · intro x hk; rw [htail]; exact h3 x hk
                · intro hk; rw [htail]; exact h4 hk
                · intro hk; rw [htail]; exact h5 hk
        | Defaulted x0 =>
          simp only [ParametersCollect.doneSlots] at h
          cases hrec : ParametersCollect.doneSlots ns ss args kwargs sig with
          | error e => rw [hrec] at h; exact absurd h (by simp [Except.map])
          | ok r =>
            rw [hrec] at h
            simp only [Except.map, Except.ok.injEq, Prod.mk.injEq] at h
            obtain ⟨hslots, hrest⟩ := h
            cases i with
            | zero =>
              simp only [List.get?] at hnd hs
              injection hnd with hnd
              injection hs with hs
              subst hnd
              subst hs
              constructor
              · intro v hv
                exact absurd hv (by simp)
              · intro _
                refine ⟨rfl, ?_, ?_, ?_, ?_⟩
                · intro hx; exact absurd hx (by simp)
                · intro x hx
                  injection hx with hx
                  subst hx
                  simp [← hslots]
                · intro hx; exact absurd hx (by simp)
                · intro hx; exact absurd hx (by simp)
            | succ i =>
              simp only [List.get?] at hnd hs
              have hfa : (ns.filter (fun nd => nd.2.isArgsKind)).length ≤ 1 := by
                refine le_trans ?_ hargs1
                simp [List.filter_cons, ParameterDefault.isArgsKind]
              have hfk : (ns.filter (fun nd => nd.2.isKWargsKind)).length ≤ 1 := by
                refine le_trans ?_ hkw1
                simp [List.filter_cons, ParameterDefault.isKWargsKind]
              have := ih ss args kwargs sig r.1 r.2 (by rw [hrec]) hfa hfk i nd s hnd hs
              have htail : slots'.get? (i + 1) = r.1.get? i := by
                rw [← hslots]
                rfl
              constructor
              · intro v hv
                rw [htail]
                exact this.1 v hv
              · intro hv
                obtain ⟨h1, h2, h3, h4, h5⟩ := this.2 hv
                refine ⟨h1, ?_, ?_, ?_, ?_⟩
                · intro hk; rw [htail]; exact h2 hk
                · intro x hk; rw [htail]; exact h3 x hk
                · intro hk; rw [htail]; exact h4 hk
                · intro hk; rw [htail]; exact h5 hk
        | Args =>
          simp only [ParametersCollect.doneSlots] at h
          cases hrec : ParametersCollect.doneSlots ns ss [] kwargs sig with
          | error e => rw [hrec] at h; exact absurd h (by simp [Except.map])
          | ok r =>
            rw [hrec] at h
            simp only [Except.map, Except.ok.injEq, Prod.mk.injEq] at h
            obtain ⟨hslots, hrest⟩ := h
            have hnoargs : ∀ nd2, nd2 ∈ ns → nd2.2.isArgsKind = false := by
              intro nd2 hmem
              by_contra hc
              rw [Bool.not_eq_false] at hc
              have hcons : ((⟨name0, ParameterDefault.Args⟩ :
                  String × ParameterDefault Val) :: ns).filter
                    (fun nd => nd.2.isArgsKind) =
                  (⟨name0, ParameterDefault.Args⟩ :
                  String × ParameterDefault Val) ::
                    ns.filter (fun nd => nd.2.isArgsKind) := by
                simp [List.filter_cons, ParameterDefault.isArgsKind]
              rw [hcons, List.length_cons] at hargs1
              have h1 : (ns.filter (fun nd => nd.2.isArgsKind)).length = 0 := by omega
              have h2 : nd2 ∈ ns.filter (fun nd => nd.2.isArgsKind) :=
                List.mem_filter.2 ⟨hmem, hc⟩
              rw [List.eq_nil_of_length_eq_zero h1] at h2
              simp at h2
            cases i with
            | zero =>
              simp only [List.get?] at hnd hs
              injection hnd with hnd
              injection hs with hs
              subst hnd
              subst hs
              constructor
              · intro v hv
                exact absurd hv (by simp)
              · intro _
                refine ⟨rfl, ?_, ?_, ?_, ?_⟩
                · intro hx; exact absurd hx (by simp)
                · intro x hx; exact absurd hx (by simp)
                · intro _
                  simp [← hslots]
                · intro hx; exact absurd hx (by simp)
            | succ i =>
              simp only [List.get?] at hnd hs
              have hfa : (ns.filter (fun nd => nd.2.isArgsKind)).length ≤ 1 := by
                refine le_trans ?_ hargs1
                simp [List.filter_cons, ParameterDefault.isArgsKind]
              have hfk : (ns.filter (fun nd => nd.2.isKWargsKind)).length ≤ 1 := by
                refine le_trans ?_ hkw1
                simp [List.filter_cons, ParameterDefault.isKWargsKind]
              have := ih ss [] kwargs sig r.1 r.2 (by rw [hrec]) hfa hfk i nd s hnd hs
              have htail : slots'.get? (i + 1) = r.1.get? i := by
                rw [← hslots]
                rfl
              constructor
              · intro v hv
                rw [htail]
                exact this.1 v hv
              · intro hv
                obtain ⟨h1, h2, h3, h4, h5⟩ := this.2 hv
                refine ⟨h1, ?_, ?_, ?_, ?_⟩
                · intro hk; rw [htail]; exact h2 hk
                · intro x hk; rw [htail]; exact h3 x hk
                · intro hk
                  have := hnoargs nd (List.get?_mem hnd)
                  rw [hk] at this
                  simp [ParameterDefault.isArgsKind] at this
                · intro hk; rw [htail]; exact h5 hk
        | KWargs =>
          simp only [ParametersCollect.doneSlots] at h
          cases hrec : ParametersCollect.doneSlots ns ss args SmallMap.new sig with
          | error e => rw [hrec] at h; exact absurd h (by simp [Except.map])
          | ok r =>
            rw [hrec] at h
            simp only [Except.map, Except.ok.injEq, Prod.mk.injEq] at h
            obtain ⟨hslots, hrest⟩ := h
            have hnokw : ∀ nd2, nd2 ∈ ns → nd2.2.isKWargsKind = false := by
              intro nd2 hmem
              by_contra hc
              rw [Bool.not_eq_false] at hc
              have hcons : ((⟨name0, ParameterDefault.KWargs⟩ :
                  String × ParameterDefault Val) :: ns).filter
                    (fun nd => nd.2.isKWargsKind) =
                  (⟨name0, ParameterDefault.KWargs⟩ :
                  String × ParameterDefault Val) ::
                    ns.filter (fun nd => nd.2.isKWargsKind) := by
                simp [List.filter_cons, ParameterDefault.isKWargsKind]
              rw [hcons, List.length_cons] at hkw1
              have h1 : (ns.filter (fun nd => nd.2.isKWargsKind)).length = 0 := by omega
              have h2 : nd2 ∈ ns.filter (fun nd => nd.2.isKWargsKind) :=
                List.mem_filter.2 ⟨hmem, hc⟩
              rw [List.eq_nil_of_length_eq_zero h1] at h2
              simp at h2
            cases i with
            | zero =>
              simp only [List.get?] at hnd hs
              injection hnd with hnd
              injection hs with hs
              subst hnd
              subst hs
              constructor
              · intro v hv
                exact absurd hv (by simp)
              · intro _
                refine ⟨rfl, ?_, ?_, ?_, ?_⟩
                · intro hx; exact absurd hx (by simp)
                · intro x hx; exact absurd hx (by simp)
                · intro hx; exact absurd hx (by simp)
                · intro _
                  simp [← hslots]
            | succ i =>
              simp only [List.get?] at hnd hs
              have hfa : (ns.filter (fun nd => nd.2.isArgsKind)).length ≤ 1 := by
                refine le_trans ?_ hargs1
                simp [List.filter_cons, ParameterDefault.isArgsKind]
              have hfk : (ns.filter (fun nd => nd.2.isKWargsKind)).length ≤ 1 := by
                refine le_trans ?_ hkw1
                simp [List.filter_cons, ParameterDefault.isKWargsKind]
              have := ih ss args SmallMap.new sig r.1 r.2 (by rw [hrec]) hfa hfk i nd s hnd hs
              have htail : slots'.get? (i + 1) = r.1.get? i := by
                rw [← hslots]
                rfl
              constructor
              · intro v hv
                rw [htail]
                exact this.1 v hv
              · intro hv
                obtain ⟨h1, h2, h3, h4, h5⟩ := this.2 hv
                refine ⟨h1, ?_, ?_, ?_, ?_⟩
                · intro hk; rw [htail]; exact h2 hk
                · intro x hk; rw [htail]; exact h3 x hk
                · intro hk; rw [htail]; exact h4 hk
                · intro hk
                  have := hnokw nd (List.get?_mem hnd)
                  rw [hk] at this
                  simp [ParameterDefault.isKWargsKind] at this

theorem doneSlots_missing (i : Nat) :
    ∀ (ns : List (String × ParameterDefault Val)) (ss : List (Option Val))
      (args : List Val) (kwargs : SmallMap String Val) (sig : String) (name : String),
    ns.get? i = some (name, ParameterDefault.Required) →
    ss.get? i = some Option.none →
    (∀ j, j < i → ∀ nd, ns.get? j = some nd → nd.2.isRequired = true →
      ss.get? j ≠ some Option.none) →
    ParametersCollect.doneSlots ns ss args kwargs sig =
      Except.error (FunctionError.MissingParameter name sig) := by
  induction i with
  | zero =>
    intro ns ss args kwargs sig name hget hslot _
    cases ns with
    | nil => simp at hget
    | cons nd0 ns =>
      cases ss with
      | nil => simp at hslot
      | cons s0 ss =>
        simp only [List.get?] at hget hslot
        injection hget with hget
        injection hslot with hslot
        subst hget
        subst hslot
        rfl
  | succ i ih =>
    intro ns ss args kwargs sig name hget hslot hfirst
    cases ns with
    | nil => simp at hget
    | cons nd0 ns =>
      cases ss with
      | nil => simp at hslot
      | cons s0 ss =>
        simp only [List.get?] at hget hslot
        have hshift : ∀ j, j < i → ∀ nd, ns.get? j = some nd →
            nd.2.isRequired = true → ss.get? j ≠ some Option.none := by
          intro j hj nd h1 h2
          exact hfirst (j + 1) (by omega) nd h1 h2
        rcases nd0 with ⟨name0, d0⟩
        cases s0 with
        | some v0 =>
          have hrec := ih ns ss args kwargs sig name hget hslot hshift
          simp only [ParametersCollect.doneSlots, hrec, Except.map]
        | none =>
          cases d0 with
          | Required =>
            exact absurd rfl (hfirst 0 (by omega) (name0, ParameterDefault.Required) rfl rfl)
          | Optional =>
            have hrec := ih ns ss args kwargs sig name hget hslot hshift
            simp only [ParametersCollect.doneSlots, hrec, Except.map]
          | Defaulted x =>
            have hrec := ih ns ss args kwargs sig name hget hslot hshift
            simp only [ParametersCollect.doneSlots, hrec, Except.map]
          | Args =>
            have hrec := ih ns ss [] kwargs sig name hget hslot hshift
            simp only [ParametersCollect.doneSlots, hrec, Except.map]
          | KWargs =>
            have hrec := ih ns ss args SmallMap.new sig name hget hslot hshift
            simp only [ParametersCollect.doneSlots, hrec, Except.map]

theorem get?_replicate_of_lt (n j : Nat) (a : α) (h : j < n) :
    (List.replicate n a).get? j = some a := by
  induction n generalizing j with
  | zero => omega
  | succ n ih =>
    cases j with
    | zero => rfl
    | succ j => exact ih j (by omega)

/-! ## Parameter collection claim theorems -/

/-- C1 counterexample: a call that leaves both splat buffers non-empty with
neither an `Args` nor a `KWargs` parameter declared.  `done` returns
`ExtraNamedParameters` — the kwargs-buffer check runs first — not
`ExtraPositionalParameters` as the claim states. -/
theorem claim_C1_counterexample :
    ((((ParametersSpec.new "f").collect 0).positional (Val.int 1)).named
        "x" (Val.int 2)).args = [Val.int 1] ∧
    ((((ParametersSpec.new "f").collect 0).positional (Val.int 1)).named
        "x" (Val.int 2)).kwargs.is_empty = false ∧
    (ParametersSpec.new "f" : ParametersSpec Val).args = Option.none ∧
    (ParametersSpec.new "f" : ParametersSpec Val).kwargs = Option.none ∧
    ((((ParametersSpec.new "f").collect 0).positional (Val.int 1)).named
        "x" (Val.int 2)).done =
      Except.error (FunctionError.ExtraNamedParameters ["x"] "f()") :=
  ⟨rfl, rfl, rfl, rfl, rfl⟩

/-- C1 (amended): in `done`, when no error was recorded during collection and
no required slot is unfilled, the check that the kwargs-splat buffer is
non-empty with no `KWargs` parameter (returning `ExtraNamedParameters`) is
applied before the args-buffer check; in particular, for every call that
leaves the kwargs buffer non-empty with neither an `Args` nor a `KWargs`
parameter declared — even when the args buffer is also non-empty — `done`
returns `ExtraNamedParameters`. -/
theorem claim_C1_amended (c : ParametersCollect)
    (herr : c.err = Option.none)
    (hsplat : c.params.names.all
      (fun nd => !nd.2.isArgsKind && !nd.2.isKWargsKind) = true)
    (hreq : (c.params.names.zip c.slots).all
      (fun p => !p.1.2.isRequired || p.2.isSome) = true)
    (hkw : c.kwargs.is_empty = false) :
    c.done = Except.error
      (FunctionError.ExtraNamedParameters c.kwargs.keys c.params.signature) := by
  obtain ⟨slots', hds⟩ :=
    doneSlots_ok_of_no_splat c.params.names c.slots c.args c.kwargs
      c.params.signature hsplat hreq
  simp only [ParametersCollect.done, herr, hds, hkw]
  rfl

/-- C1 witness: the amended ordering applied to a concrete call with both
buffers non-empty. -/
theorem claim_C1_witness :
    ((((ParametersSpec.new "g").collect 0).positional (Val.int 3)).named
        "y" (Val.str "v")).done =
      Except.error (FunctionError.ExtraNamedParameters
        ((((ParametersSpec.new "g").collect 0).positional (Val.int 3)).named
          "y" (Val.str "v")).kwargs.keys
        ((((ParametersSpec.new "g").collect 0).positional (Val.int 3)).named
          "y" (Val.str "v")).params.signature) :=
  claim_C1_amended _ rfl rfl rfl rfl

/-- C3: `done` with no recorded error resolves every slot by its parameter
kind: a filled slot keeps its value; an unfilled `Optional` slot stays
unassigned; an unfilled `Defaulted` slot receives the default; an unfilled
`Args` slot receives a tuple of the args-splat buffer; an unfilled `KWargs`
slot receives a dict of the kwargs-splat buffer; and an unfilled `Required`
slot makes `done` fail with `MissingParameter` (for the first such slot). -/
theorem claim_C3 (c : ParametersCollect)
    (herr : c.err = Option.none)
    (hargs1 : (c.params.names.filter (fun nd => nd.2.isArgsKind)).length ≤ 1)
    (hkw1 : (c.params.names.filter (fun nd => nd.2.isKWargsKind)).length ≤ 1) :
    (∀ slots', c.done = Except.ok slots' →
      ∀ i nd s, c.params.names.get? i = some nd → c.slots.get? i = some s →
        (∀ v, s = some v → slots'.get? i = some (some v)) ∧
        (s = Option.none →
          nd.2.isRequired = false ∧
          (nd.2 = ParameterDefault.Optional → slots'.get? i = some Option.none) ∧
          (∀ x, nd.2 = ParameterDefault.Defaulted x → slots'.get? i = some (some x)) ∧
          (nd.2 = ParameterDefault.Args →
            slots'.get? i = some (some (Val.tuple c.args))) ∧
          (nd.2 = ParameterDefault.KWargs →
            slots'.get? i = some (some (Val.dict c.kwargs.entries))))) ∧
    (∀ i name, c.params.names.get? i = some (name, ParameterDefault.Required) →
      c.slots.get? i = some Option.none →
      (∀ j, j < i → ∀ nd, c.params.names.get? j = some nd →
        nd.2.isRequired = true → c.slots.get? j ≠ some Option.none) →
      c.done = Except.error
        (FunctionError.MissingParameter name c.params.signature)) := by
  constructor
  · intro slots' hok i nd s hnd hs
    simp only [ParametersCollect.done, herr] at hok
    cases hds : ParametersCollect.doneSlots c.params.names c.slots c.args c.kwargs
        c.params.signature with
    | error e => rw [hds] at hok; exact absurd hok (by simp)
    | ok r =>
      rw [hds] at hok
      rcases r with ⟨slots0, args0, kwargs0⟩
      dsimp only at hok
      by_cases hkwe : !kwargs0.is_empty
      · rw [if_pos hkwe] at hok
        exact absurd hok (by simp)
      · rw [if_neg hkwe] at hok
        by_cases hae : !args0.isEmpty
        · rw [if_pos hae] at hok
          exact absurd hok (by simp)
        · rw [if_neg hae] at hok
          injection hok with hok
          subst hok
          exact doneSlots_ok_get c.params.names c.slots c.args c.kwargs
            c.params.signature slots0 (args0, kwargs0) hds hargs1 hkw1 i nd s hnd hs
  · intro i name hnd hs hfirst
    have hds := doneSlots_missing i c.params.names c.slots c.args c.kwargs
      c.params.signature name hnd hs hfirst
    simp only [ParametersCollect.done, herr, hds]

/-- C3 witness: the slot-resolution facts applied to a concrete call —
`f(a, b = 7, *args, **kw)` called with one positional argument: `a` keeps the
argument, `b` gets its default, `args` a tuple of the empty buffer, `kw` a
dict of the empty buffer; and the same spec called with no arguments fails
with `MissingParameter` for `a`. -/
theorem claim_C3_witness :
    (([some (Val.int 1), some (Val.int 7), some (Val.tuple []), some (Val.dict [])] :
        List (Option Val)).get? 1 = some (some (Val.int 7))) ∧
    ((exampleSpec.collect 0).done =
      Except.error (FunctionError.MissingParameter "a" exampleSpec.signature)) := by
  constructor
  · have h := (claim_C3 (ParametersCollect.positional (exampleSpec.collect 0)
        (Val.int 1)) rfl (by decide) (by decide)).1
      [some (Val.int 1), some (Val.int 7), some (Val.tuple []), some (Val.dict [])]
      rfl 1 ("b", ParameterDefault.Defaulted (Val.int 7)) Option.none rfl rfl
    exact (h.2 rfl).2.2.1 (Val.int 7) rfl
  · exact (claim_C3 (exampleSpec.collect 0) rfl (by decide) (by decide)).2 0 "a"
      rfl rfl (by intro j hj; exact absurd hj (Nat.not_lt_zero j))

/-- C4: under the collector's fast-path invariant, `positional(v)` behaves as
specified — while `next_position` is below the spec's positional count, it
fills the next slot and advances when that slot is unbound, and records
`RepeatedParameter` (keeping slots, position and args unchanged) when the
slot is already bound; otherwise, including when the positional count is 0,
it appends `v` to the args-splat buffer. -/
theorem claim_C4 (c : ParametersCollect) (val : Val)
    (hinv : c.OnlyPosInv) (hrange : c.params.positional ≤ c.slots.length) :
    (c.next_position < c.params.positional →
      c.slots.get? c.next_position = some Option.none →
      c.positional val =
        { c with
          slots := c.slots.set c.next_position (some val)
          next_position := c.next_position + 1 }) ∧
    (c.next_position < c.params.positional →
      ∀ w, c.slots.get? c.next_position = some (some w) →
      (c.positional val).slots = c.slots ∧
      (c.positional val).next_position = c.next_position ∧
      (c.positional val).args = c.args ∧
      (c.positional val).err =
        (if c.err = Option.none then
          some (FunctionError.RepeatedParameter
            (((c.params.names.get? c.next_position).map Prod.fst).getD ""))
        else c.err)) ∧
    (c.params.positional ≤ c.next_position →
      c.positional val = { c with args := c.args ++ [val] }) := by
  refine ⟨?_, ?_, ?_⟩
  · intro hlt hslot
    simp only [ParametersCollect.positional, if_pos hlt, hslot]
    cases hop : c.only_positional <;> simp
  · intro hlt w hslot
    have hop : c.only_positional = false := by
      cases hop : c.only_positional with
      | false => rfl
      | true =>
        have := hinv hop c.next_position (le_refl _) (by
          have := List.get?_eq_some.1 hslot
          omega)
        rw [hslot] at this
        injection this with this
        exact absurd this (by simp)
    simp only [ParametersCollect.positional, if_pos hlt, hop, hslot]
    simp only [Bool.false_or]
    simp only [ParametersCollect.set_err]
    by_cases he : c.err = Option.none
    · rw [if_pos he, if_pos he]
      exact ⟨rfl, rfl, rfl, rfl⟩
    · rw [if_neg he, if_neg he]
      exact ⟨rfl, rfl, rfl, rfl⟩
  · intro hge
    have : ¬c.next_position < c.params.positional := by omega
    simp only [ParametersCollect.positional, if_neg this]

/-- C4 witness: the three behaviours at concrete collector states — filling
slot 0 of a fresh collector for `f(a, b = 7, *args, **kw)`, the repeated-slot
error after a named fill of `a`, and the append-to-args case for a spec with
no positionally-fillable parameters. -/
theorem claim_C4_witness :
    ((exampleSpec.collect 0).positional (Val.int 5) =
      { exampleSpec.collect 0 with
        slots := (exampleSpec.collect 0).slots.set 0 (some (Val.int 5))
        next_position := 1 }) ∧
    ((((exampleSpec.collect 0).named "a" (Val.int 1)).positional (Val.int 5)).err =
      some (FunctionError.RepeatedParameter "a")) ∧
    (((ParametersSpec.new "h").collect 0).positional (Val.int 5) =
      { (ParametersSpec.new "h").collect 0 with args := [Val.int 5] }) := by
  refine ⟨?_, ?_, ?_⟩
  · exact (claim_C4 (exampleSpec.collect 0) (Val.int 5)
      (by
        intro _ j h1 h2
        simp only [ParametersSpec.collect, List.length_replicate] at h2
        exact get?_replicate_of_lt _ j _ h2)
      (by decide)).1 (by decide) rfl
  · have h := (claim_C4 ((exampleSpec.collect 0).named "a" (Val.int 1)) (Val.int 5)
      (by intro hop; exact absurd hop (by decide))
      (by decide)).2.1 (by decide) (Val.int 1) rfl
    rw [h.2.2.2]
    rfl
  · exact (claim_C4 ((ParametersSpec.new "h").collect 0) (Val.int 5)
      (by
        intro _ j h1 h2
        simp [ParametersSpec.collect, ParametersSpec.new] at h2)
      (by decide)).2.2 (by decide)

/-- C10: when `named` is given a name absent from the spec's index whose
entry is already in the kwargs-splat buffer, a `RepeatedParameter` error is
recorded immediately (when no earlier error exists), the later value replaces
the earlier one in the buffer, and `done` surfaces that `RepeatedParameter` —
not a deferred `ExtraNamedParameters`. -/
theorem claim_C10 (c : ParametersCollect) (name : String) (old val : Val)
    (herr : c.err = Option.none)
    (hidx : c.params.indices.get_hashed name = Option.none)
    (hbuf : c.kwargs.get_hashed name = some old) :
    ((c.named name val).err = some (FunctionError.RepeatedParameter name)) ∧
    ((c.named name val).kwargs.get_hashed name = some val) ∧
    ((c.named name val).done =
      Except.error (FunctionError.RepeatedParameter name)) := by
  have hold : (c.kwargs.insert_hashed name val).1 = some old := by
    rw [SmallMap.insert_hashed_fst, ← SmallMap.get_hashed_eq_entriesGet]
    exact hbuf
  have hnamed : c.named name val =
      ParametersCollect.set_err
        { c with only_positional := false
                 kwargs := (c.kwargs.insert_hashed name val).2 }
        (FunctionError.RepeatedParameter name) := by
    simp only [ParametersCollect.named, hidx, hold]
    rfl
  have hget : (c.kwargs.insert_hashed name val).2.get_hashed name = some val := by
    rw [SmallMap.get_hashed_eq_entriesGet, SmallMap.insert_hashed_entries]
    exact entriesGet_insert_self c.kwargs.entries name val
  have herr2 : (c.named name val).err = some (FunctionError.RepeatedParameter name) := by
    rw [hnamed]
    simp [ParametersCollect.set_err, herr]
  refine ⟨herr2, ?_, ?_⟩
  · rw [hnamed]
    simp only [ParametersCollect.set_err, herr]
    simpa using hget
  · simp only [ParametersCollect.done, herr2]

/-- C10 witness: a second `named` for the same extra name on a concrete
collector. -/
theorem claim_C10_witness :
    (((((ParametersSpec.new "f").collect 0).named "x" (Val.int 1)).named
        "x" (Val.int 2)).err = some (FunctionError.RepeatedParameter "x")) ∧
    (((((ParametersSpec.new "f").collect 0).named "x" (Val.int 1)).named
        "x" (Val.int 2)).kwargs.get_hashed "x" = some (Val.int 2)) ∧
    (((((ParametersSpec.new "f").collect 0).named "x" (Val.int 1)).named
        "x" (Val.int 2)).done =
      Except.error (FunctionError.RepeatedParameter "x")) :=
  claim_C10 (((ParametersSpec.new "f").collect 0).named "x" (Val.int 1))
    "x" (Val.int 1) (Val.int 2) rfl rfl rfl

/-! ## Scope resolver lemmas -/

theorem entriesGet_append_left [DecidableEq K] (l1 l2 : List (K × V)) (key : K) (v : V)
    (h : entriesGet l1 key = some v) : entriesGet (l1 ++ l2) key = some v := by
  induction l1 with
  | nil => simp [entriesGet] at h
  | cons kv rest ih =>
    by_cases hk : kv.1 = key
    · simp only [entriesGet, if_pos hk] at h
      simp only [List.cons_append, entriesGet, if_pos hk, h]
    · simp only [entriesGet, if_neg hk] at h
      simp only [List.cons_append, entriesGet, if_neg hk]
      exact ih h

theorem foldAdd_fresh (xs : List String) :
    ∀ s : ScopeNames, xs.Nodup →
    (∀ x ∈ xs, entriesGet s.mp x = Option.none) →
    (xs.foldl (fun a p => (a.add_name p).2) s).mp = s.mp ++ enumSlots s.used xs ∧
    (xs.foldl (fun a p => (a.add_name p).2) s).used = s.used + xs.length := by
  induction xs with
  | nil => intro s _ _; simp [enumSlots]
  | cons x xs ih =>
    intro s hnd hfresh
    simp only [List.nodup_cons] at hnd
    have hx : entriesGet s.mp x = Option.none := hfresh x (by simp)
    have hadd : (s.add_name x).2 =
        { s with used := s.used + 1, mp := s.mp ++ [(x, s.used)] } := by
      simp only [ScopeNames.add_name, hx]
    simp only [List.foldl_cons, hadd]
    have hfresh2 : ∀ y ∈ xs,
        entriesGet (s.mp ++ [(x, s.used)]) y = Option.none := by
      intro y hy
      rw [entriesGet_none_iff]
      simp only [List.map_append, List.mem_append]
      intro hc
      rcases hc with hc | hc
      · exact (entriesGet_none_iff _ _).1 (hfresh y (by simp [hy])) hc
      · simp only [List.map_cons, List.map_nil, List.mem_singleton] at hc
        exact hnd.1 (hc ▸ hy)
    have := ih { s with used := s.used + 1, mp := s.mp ++ [(x, s.used)] } hnd.2 hfresh2
    refine ⟨?_, ?_⟩
    · rw [this.1]
      simp [enumSlots, List.append_assoc]
    · rw [this.2]
      simp only [List.length_cons]
      omega

theorem entriesGet_enumSlots (xs : List String) :
    ∀ (base i : Nat) (x : String), xs.Nodup → xs.get? i = some x →
    entriesGet (enumSlots base xs) x = some (base + i) := by
  induction xs with
  | nil => intro base i x _ hx; simp at hx
  | cons y xs ih =>
    intro base i x hnd hx
    simp only [List.nodup_cons] at hnd
    cases i with
    | zero =>
      simp only [List.get?] at hx
      injection hx with hx
      subst hx
      simp [enumSlots, entriesGet]
    | succ i =>
      simp only [List.get?] at hx
      have hymem : x ∈ xs := List.get?_mem hx
      have hne : y ≠ x := fun he => hnd.1 (he ▸ hymem)
      simp only [enumSlots, entriesGet, if_neg hne]
      rw [ih (base + 1) i x hnd.2 hx]
      congr 1
      omega

theorem foldAdd_preserves (ds : List String) :
    ∀ (s : ScopeNames) (x : String) (v : Nat),
    entriesGet s.mp x = some v →
    entriesGet ((ds.foldl (fun a p => (a.add_name p).2) s).mp) x = some v := by
  induction ds with
  | nil => intro s x v h; exact h
  | cons d ds ih =>
    intro s x v h
    simp only [List.foldl_cons]
    cases hd : entriesGet s.mp d with
    | some w =>
      have : (s.add_name d).2 = s := by simp [ScopeNames.add_name, hd]
      rw [this]
      exact ih s x v h
    | none =>
      have : (s.add_name d).2 =
          { s with used := s.used + 1, mp := s.mp ++ [(d, s.used)] } := by
        simp [ScopeNames.add_name, hd]
      rw [this]
      exact ih _ x v (entriesGet_append_left s.mp [(d, s.used)] x v h)

/-! ## Scope resolver claim theorem -/

/-- C8: after `enter_def` with a list of distinct parameters, the parameters
occupy the leading local slots in declaration order: `get_name` on the
parameter at position `i` returns `Local(i)`, and `i` is below the number of
parameters — for any enclosing scope state and any body-define order. -/
theorem claim_C8 (sc : Scope) (params defines : List String) (i : Nat) (x : String)
    (hnd : params.Nodup) (hx : params.get? i = some x) :
    ((sc.enter_def params defines).get_name x).1 = some (Slot.Local i) ∧
    i < params.length := by
  have hfold := foldAdd_fresh params ScopeNames.empty hnd (fun y _ => rfl)
  have h0 : entriesGet
      ((params.foldl (fun a p => (a.add_name p).2) ScopeNames.empty).mp) x = some i := by
    rw [hfold.1]
    have := entriesGet_enumSlots params 0 i x hnd hx
    simpa [ScopeNames.empty] using this
  have h1 : entriesGet
      ((defines.foldl (fun a p => (a.add_name p).2)
        (params.foldl (fun a p => (a.add_name p).2) ScopeNames.empty)).mp) x =
      some i := foldAdd_preserves defines _ x i h0
  constructor
  · simp only [Scope.enter_def, Scope.get_name, getNameLocals,
      ScopeNames.get_name, h1]
  · obtain ⟨h, _⟩ := List.get?_eq_some.1 hx
    exact h

/-- C8 witness: a concrete `enter_def` with parameters `[a, b]` and body
defines `[c, a]`; `get_name b` yields `Local 1`. -/
theorem claim_C8_witness :
    ((Scope.enter_def ⟨[], []⟩ ["a", "b"] ["c", "a"]).get_name "b").1 =
      some (Slot.Local 1) ∧ 1 < (["a", "b"] : List String).length :=
  claim_C8 ⟨[], []⟩ ["a", "b"] ["c", "a"] 1 "b" (by decide) rfl

/-! ## Value get_ref claim theorems -/

/-- C2 counterexample: a value pointing at a `Mutable` heap entry whose cell
is not borrowed at all.  The claim says `get_ref` returns a borrowed handle
here; the code returns `None` for every `Mutable` entry regardless of borrow
state. -/
theorem claim_C2_counterexample :
    ¬ (Value.mk (Pointer.Ptr2
        (ValueMem.Mutable BorrowState.free ⟨0⟩))).isMutablyBorrowed ∧
    (Value.mk (Pointer.Ptr2
        (ValueMem.Mutable BorrowState.free ⟨0⟩))).get_ref = GetRefResult.noHandle :=
  ⟨fun h => h, rfl⟩

/-- C2 (amended): `get_ref` returns `None` exactly when the heap entry the
value points at is a `Mutable` or `ThawOnWrite` variant, regardless of its
borrow state; in every other case it returns a borrowed handle or panics on
the variants unreachable outside freezing/GC. -/
theorem claim_C2_amended (v : Value) :
    v.get_ref = GetRefResult.noHandle ↔ v.pointsAtMutableVariant := by
  rcases v with ⟨p⟩
  cases p with
  | Ptr1 m =>
    cases m <;>
      simp [Value.get_ref, FrozenValueMem.get_ref, Value.pointsAtMutableVariant]
  | Ptr2 m =>
    cases m with
    | Forward fv =>
      rcases fv with ⟨fp⟩
      cases fp with
      | Ptr1 fm =>
        cases fm <;>
          simp [Value.get_ref, ValueMem.get_ref, FrozenValue.get_ref,
            FrozenValueMem.get_ref, Value.pointsAtMutableVariant]
      | Unassigned =>
        simp [Value.get_ref, ValueMem.get_ref, FrozenValue.get_ref,
          Value.pointsAtMutableVariant]
      | nonePtr =>
        simp [Value.get_ref, ValueMem.get_ref, FrozenValue.get_ref,
          Value.pointsAtMutableVariant]
      | boolPtr b =>
        simp [Value.get_ref, ValueMem.get_ref, FrozenValue.get_ref,
          Value.pointsAtMutableVariant]
      | intPtr i =>
        simp [Value.get_ref, ValueMem.get_ref, FrozenValue.get_ref,
          Value.pointsAtMutableVariant]
    | Uninitialized =>
      simp [Value.get_ref, ValueMem.get_ref, Value.pointsAtMutableVariant]
    | Copied v =>
      simp [Value.get_ref, ValueMem.get_ref, Value.pointsAtMutableVariant]
    | Blackhole =>
      simp [Value.get_ref, ValueMem.get_ref, Value.pointsAtMutableVariant]
    | Str s =>
      simp [Value.get_ref, ValueMem.get_ref, Value.pointsAtMutableVariant]
    | Simple o =>
      simp [Value.get_ref, ValueMem.get_ref, Value.pointsAtMutableVariant]
    | Immutable o =>
      simp [Value.get_ref, ValueMem.get_ref, Value.pointsAtMutableVariant]
    | Mutable b o =>
      simp [Value.get_ref, ValueMem.get_ref, Value.pointsAtMutableVariant]
    | ThawOnWrite t =>
      simp [Value.get_ref, ValueMem.get_ref, Value.pointsAtMutableVariant]
    | Ref c =>
      simp [Value.get_ref, ValueMem.get_ref, Value.pointsAtMutableVariant]
    | CallEnter v =>
      simp [Value.get_ref, ValueMem.get_ref, Value.pointsAtMutableVariant]
    | CallExit =>
      simp [Value.get_ref, ValueMem.get_ref, Value.pointsAtMutableVariant]
  | Unassigned =>
    simp [Value.get_ref, Value.pointsAtMutableVariant]
  | nonePtr =>
    simp [Value.get_ref, Value.pointsAtMutableVariant]
  | boolPtr b =>
    simp [Value.get_ref, Value.pointsAtMutableVariant]
  | intPtr i =>
    simp [Value.get_ref, Value.pointsAtMutableVariant]

end Starlark
